import Mathlib

/-!
Formal model of the UTXO blockchain indexer.

The embedding follows the layered application that `src/index.ts` boots
(`App` -> controllers -> `BlockchainService` -> repositories), with the
PostgreSQL tables of `db/init.sql` modelled as in-memory lists of rows and
each SQL statement modelled as a pure function on that state.  Machine
arithmetic is modelled with `Nat`/`Int` (heights are `INTEGER`, values are
`BIGINT`; the JavaScript float round trip is exact for the integral values
the schema stores).  Node `createHash('sha256')` is modelled by an
executable FIPS 180-4 SHA-256 over the UTF-8 bytes of the input string.
-/

namespace Indexer

/-! SHA-256 (FIPS 180-4), used by `calculateBlockHash`. -/

/-- Modulus for 32-bit words. -/
def M32 : Nat := 4294967296

/-- Right rotation of a 32-bit word. -/
def rotr (n x : Nat) : Nat := ((x >>> n) ||| (x <<< (32 - n))) % M32

/-- Logical right shift. -/
def shr (n x : Nat) : Nat := x >>> n

/-- The four sigma functions and the choose/majority functions of FIPS 180-4.
Bitwise complement on 32 bits is xor with 2^32 - 1. -/
def bigS0 (x : Nat) : Nat := rotr 2 x ^^^ rotr 13 x ^^^ rotr 22 x
def bigS1 (x : Nat) : Nat := rotr 6 x ^^^ rotr 11 x ^^^ rotr 25 x
def smallS0 (x : Nat) : Nat := rotr 7 x ^^^ rotr 18 x ^^^ shr 3 x
def smallS1 (x : Nat) : Nat := rotr 17 x ^^^ rotr 19 x ^^^ shr 10 x
def chooseFn (x y z : Nat) : Nat := (x &&& y) ^^^ ((x ^^^ 4294967295) &&& z)
def majorityFn (x y z : Nat) : Nat := (x &&& y) ^^^ (x &&& z) ^^^ (y &&& z)

/-- The 64 SHA-256 round constants of FIPS 180-4, written in decimal. -/
def roundConst : List Nat :=
  [1116352408, 1899447441, 3049323471, 3921009573, 961987163,
   1508970993, 2453635748, 2870763221, 3624381080, 310598401,
   607225278, 1426881987, 1925078388, 2162078206, 2614888103,
   3248222580, 3835390401, 4022224774, 264347078, 604807628,
   770255983, 1249150122, 1555081692, 1996064986, 2554220882,
   2821834349, 2952996808, 3210313671, 3336571891, 3584528711,
   113926993, 338241895, 666307205, 773529912, 1294757372,
   1396182291, 1695183700, 1986661051, 2177026350, 2456956037,
   2730485921, 2820302411, 3259730800, 3345764771, 3516065817,
   3600352804, 4094571909, 275423344, 430227734, 506948616,
   659060556, 883997877, 958139571, 1322822218, 1537002063,
   1747873779, 1955562222, 2024104815, 2227730452, 2361852424,
   2428436474, 2756734187, 3204031479, 3329325298]

/-- Append the 0x80 marker, zero padding and the 64-bit big-endian bit length. -/
def padBytes (msg : List Nat) : List Nat :=
  let len := msg.length
  let bitLen := 8 * len
  let padZeros := (55 + 64 - (len % 64)) % 64
  msg ++ [0x80] ++ List.replicate padZeros 0 ++
    [(bitLen >>> 56) % 256, (bitLen >>> 48) % 256, (bitLen >>> 40) % 256, (bitLen >>> 32) % 256,
     (bitLen >>> 24) % 256, (bitLen >>> 16) % 256, (bitLen >>> 8) % 256, bitLen % 256]

/-- Group bytes into big-endian 32-bit words. -/
def bytesToWords : List Nat → List Nat
  | b0 :: b1 :: b2 :: b3 :: rest => (((b0 * 256 + b1) * 256 + b2) * 256 + b3) :: bytesToWords rest
  | _ => []

/-- Split the word stream into 16-word blocks. -/
def chunkWords : List Nat → List (List Nat)
  | w0 :: w1 :: w2 :: w3 :: w4 :: w5 :: w6 :: w7 ::
    w8 :: w9 :: w10 :: w11 :: w12 :: w13 :: w14 :: w15 :: rest =>
      [w0, w1, w2, w3, w4, w5, w6, w7, w8, w9, w10, w11, w12, w13, w14, w15] :: chunkWords rest
  | _ => []

/-- Message-schedule extension: append `n` further words to `w`. -/
def extendSchedule (w : List Nat) : Nat → List Nat
  | 0 => w
  | n + 1 =>
    let w2 := extendSchedule w n
    let t := w2.length
    let nw := (smallS1 (w2.getD (t - 2) 0) + w2.getD (t - 7) 0 +
               smallS0 (w2.getD (t - 15) 0) + w2.getD (t - 16) 0) % M32
    w2 ++ [nw]

/-- The eight 32-bit working variables of SHA-256. -/
structure Hash8 where
  a : Nat
  b : Nat
  c : Nat
  d : Nat
  e : Nat
  f : Nat
  g : Nat
  h : Nat
deriving DecidableEq

/-- One compression round. -/
def round (st : Hash8) (kt wt : Nat) : Hash8 :=
  let t1 := (st.h + bigS1 st.e + chooseFn st.e st.f st.g + kt + wt) % M32
  let t2 := (bigS0 st.a + majorityFn st.a st.b st.c) % M32
  ⟨(t1 + t2) % M32, st.a, st.b, st.c, (st.d + t1) % M32, st.e, st.f, st.g⟩

/-- Compress one 512-bit block into the running hash. -/
def compressBlock (st : Hash8) (block : List Nat) : Hash8 :=
  let w := extendSchedule block 48
  let fin := (List.zip roundConst w).foldl (fun s kw => round s kw.1 kw.2) st
  ⟨(st.a + fin.a) % M32, (st.b + fin.b) % M32, (st.c + fin.c) % M32, (st.d + fin.d) % M32,
   (st.e + fin.e) % M32, (st.f + fin.f) % M32, (st.g + fin.g) % M32, (st.h + fin.h) % M32⟩

/-- The SHA-256 initial hash value of FIPS 180-4, written in decimal. -/
def initH : Hash8 :=
  ⟨1779033703, 3144134277, 1013904242, 2773480762,
   1359893119, 2600822924, 528734635, 1541459225⟩

/-- SHA-256 of a byte list. -/
def sha256Bytes (msg : List Nat) : Hash8 :=
  (chunkWords (bytesToWords (padBytes msg))).foldl compressBlock initH

/-- Lowercase hexadecimal digit. -/
def hexDigit (n : Nat) : Char := if n < 10 then Char.ofNat (48 + n) else Char.ofNat (87 + n)

/-- Eight lowercase hex characters of a 32-bit word, most significant first. -/
def wordHex (w : Nat) : List Char :=
  [hexDigit ((w >>> 28) % 16), hexDigit ((w >>> 24) % 16), hexDigit ((w >>> 20) % 16),
   hexDigit ((w >>> 16) % 16), hexDigit ((w >>> 12) % 16), hexDigit ((w >>> 8) % 16),
   hexDigit ((w >>> 4) % 16), hexDigit (w % 16)]

/-- Lowercase hexadecimal encoding of the digest. -/
def hashHex (st : Hash8) : String :=
  ⟨wordHex st.a ++ wordHex st.b ++ wordHex st.c ++ wordHex st.d ++
   wordHex st.e ++ wordHex st.f ++ wordHex st.g ++ wordHex st.h⟩

/-- UTF-8 encoding of one character (Node `hash.update(string)` default encoding). -/
def encodeChar (c : Char) : List Nat :=
  let n := c.toNat
  if n < 0x80 then [n]
  else if n < 0x800 then [0xC0 ||| (n >>> 6), 0x80 ||| (n &&& 0x3F)]
  else if n < 0x10000 then
    [0xE0 ||| (n >>> 12), 0x80 ||| ((n >>> 6) &&& 0x3F), 0x80 ||| (n &&& 0x3F)]
  else
    [0xF0 ||| (n >>> 18), 0x80 ||| ((n >>> 12) &&& 0x3F), 0x80 ||| ((n >>> 6) &&& 0x3F),
     0x80 ||| (n &&& 0x3F)]

/-- UTF-8 bytes of a string. -/
def strBytes (s : String) : List Nat := s.data.foldr (fun c acc => encodeChar c ++ acc) []

/-- Lowercase hex SHA-256 digest of a string, as `createHash('sha256').update(s).digest('hex')`. -/
def sha256Hex (s : String) : String := hashHex (sha256Bytes (strBytes s))

/-! Data model: `src/types` request shapes and the rows of `db/init.sql`. -/

/-- A transaction output: `Output` of `src/types`. -/
structure Output where
  address : String
  value : Int
deriving DecidableEq

/-- A transaction input referencing a prior output: `Input` of `src/types`. -/
structure Input where
  txId : String
  index : Int
deriving DecidableEq

/-- A transaction: `Transaction` of `src/types`. -/
structure Transaction where
  id : String
  inputs : List Input
  outputs : List Output
deriving DecidableEq

/-- A block: `Block` of `src/types`. -/
structure Block where
  id : String
  height : Int
  transactions : List Transaction
deriving DecidableEq

/-- A row of the `utxos` table. -/
structure UtxoRow where
  txId : String
  outputIndex : Int
  address : String
  value : Int
  spent : Bool
  spentInTx : Option String
  blockHeight : Int
deriving DecidableEq

/-- A row of the `transactions` table. -/
structure TxRow where
  id : String
  blockId : String
  blockHeight : Int
deriving DecidableEq

/-- A row of the `blocks` table. -/
structure BlockRow where
  id : String
  height : Int
deriving DecidableEq

/-- The database state: the three tables of `db/init.sql`. -/
structure DBState where
  blocks : List BlockRow
  transactions : List TxRow
  utxos : List UtxoRow
deriving DecidableEq

/-- The primary key of a `utxos` row. -/
def rowKey (u : UtxoRow) : String × Int := (u.txId, u.outputIndex)

namespace BlockRepository

/-- BlockRepository.getCurrentHeight: `SELECT MAX(height) as max FROM blocks`, with
`result.rows[0]?.max ?? 0` turning the empty-table NULL into 0. -/
def getCurrentHeight (s : DBState) : Int :=
  match s.blocks.map BlockRow.height with
  | [] => 0
  | h :: t => t.foldl max h

/-- BlockRepository.saveBlock: `INSERT INTO blocks (id, height) VALUES ($1, $2)`.
The insert fails on the primary key `id` or the UNIQUE constraint on `height`;
a failed single-statement insert leaves the store unchanged. -/
def saveBlock (s : DBState) (id : String) (height : Int) : Option String × DBState :=
  if s.blocks.any (fun r => r.id == id || r.height == height) then
    (some "duplicate key value violates unique constraint on blocks", s)
  else
    (none, { s with blocks := s.blocks ++ [⟨id, height⟩] })

/-- The WHERE clause of the un-spend UPDATE of rollbackToHeight:
`spent_in_tx IN (SELECT id FROM transactions WHERE block_height > $1)`
(a NULL spent_in_tx matches nothing). -/
def spentByRolled (rolledIds : List String) (u : UtxoRow) : Bool :=
  match u.spentInTx with
  | some t => rolledIds.contains t
  | none => false

/-- BlockRepository.rollbackToHeight, the BEGIN..COMMIT unit of
`src/repositories/block.repository.ts`: reset utxos spent by transactions above
the target height, then delete utxos, transactions and blocks above it. -/
def rollbackToHeight (s : DBState) (height : Int) : DBState :=
  let rolledIds := (s.transactions.filter (fun t => decide (height < t.blockHeight))).map TxRow.id
  let utxos1 := s.utxos.map (fun u =>
    if spentByRolled rolledIds u then
      { u with spent := false, spentInTx := none }
    else u)
  { blocks := s.blocks.filter (fun r => decide (r.height ≤ height)),
    transactions := s.transactions.filter (fun t => decide (t.blockHeight ≤ height)),
    utxos := utxos1.filter (fun u => decide (u.blockHeight ≤ height)) }

end BlockRepository

namespace TransactionRepository

/-- The row lookup of TransactionRepository.getUtxo:
`SELECT address, value FROM utxos WHERE tx_id = $1 AND output_index = $2 AND spent = FALSE`. -/
def findUnspentRow (s : DBState) (txId : String) (index : Int) : Option UtxoRow :=
  s.utxos.find? (fun u => u.txId == txId && u.outputIndex == index && !u.spent)

/-- TransactionRepository.getUtxo: projects the found row to an address/value pair,
returning `none` when no unspent row matches. -/
def getUtxo (s : DBState) (txId : String) (index : Int) : Option (String × Int) :=
  (findUnspentRow s txId index).map (fun u => (u.address, u.value))

/-- The `INSERT INTO transactions (id, block_id, block_height)` statement of
saveTransaction.  Fails on the primary key `id` or the foreign key to `blocks`. -/
def insertTransactionRow (s : DBState) (id blockId : String) (blockHeight : Int) :
    Option String × DBState :=
  if s.transactions.any (fun r => r.id == id) then
    (some "duplicate key value violates unique constraint on transactions", s)
  else if !(s.blocks.any (fun r => r.id == blockId)) then
    (some "insert on transactions violates foreign key constraint on block_id", s)
  else
    (none, { s with transactions := s.transactions ++ [⟨id, blockId, blockHeight⟩] })

/-- The `INSERT INTO utxos ... VALUES ($1, $2, $3, $4, FALSE, $5)` statement of
saveTransaction.  Fails on the composite primary key (tx_id, output_index). -/
def insertUtxoRow (s : DBState) (u : UtxoRow) : Option String × DBState :=
  if s.utxos.any (fun r => r.txId == u.txId && r.outputIndex == u.outputIndex) then
    (some "duplicate key value violates unique constraint on utxos", s)
  else
    (none, { s with utxos := s.utxos ++ [u] })

/-- The output insertion loop of saveTransaction, with the running 0-based index. -/
def insertOutputs (s : DBState) (txId : String) (blockHeight : Int) (i : Int) :
    List Output → Option String × DBState
  | [] => (none, s)
  | o :: rest =>
    match insertUtxoRow s ⟨txId, i, o.address, o.value, false, none, blockHeight⟩ with
    | (some e, s1) => (some e, s1)
    | (none, s1) => insertOutputs s1 txId blockHeight (i + 1) rest

/-- The spend-marking statement of saveTransaction:
`UPDATE utxos SET spent = TRUE, spent_in_tx = $1 WHERE tx_id = $2 AND output_index = $3`.
Note the WHERE clause has no `spent = FALSE` condition. -/
def markSpent (s : DBState) (spender : String) (inputTxId : String) (index : Int) : DBState :=
  { s with utxos := s.utxos.map (fun u =>
      if u.txId == inputTxId && u.outputIndex == index then
        { u with spent := true, spentInTx := some spender }
      else u) }

/-- The input loop of saveTransaction, marking each referenced utxo spent. -/
def markInputs (s : DBState) (spender : String) : List Input → DBState
  | [] => s
  | i :: rest => markInputs (markSpent s spender i.txId i.index) spender rest

/-- TransactionRepository.saveTransaction: inserts the transaction row, then the
output rows, then marks the input utxos spent — each statement an independent
auto-committed `db.query`, so a failure keeps all earlier writes. -/
def saveTransaction (s : DBState) (tx : Transaction) (blockId : String) (blockHeight : Int) :
    Option String × DBState :=
  match insertTransactionRow s tx.id blockId blockHeight with
  | (some e, s1) => (some e, s1)
  | (none, s1) =>
    match insertOutputs s1 tx.id blockHeight 0 tx.outputs with
    | (some e, s2) => (some e, s2)
    | (none, s2) => (none, markInputs s2 tx.id tx.inputs)

/-- TransactionRepository.getBalance:
`SELECT COALESCE(SUM(value), 0) FROM utxos WHERE address = $1 AND spent = FALSE`. -/
def getBalance (s : DBState) (address : String) : Int :=
  ((s.utxos.filter (fun u => u.address == address && !u.spent)).map UtxoRow.value).foldl (· + ·) 0

end TransactionRepository

namespace BlockchainService

/-- BlockchainService.calculateBlockHash:
`createHash('sha256').update(height + transactions.map(tx => tx.id).join('')).digest('hex')`. -/
def calculateBlockHash (height : Int) (transactions : List Transaction) : String :=
  sha256Hex (toString height ++ String.join (transactions.map Transaction.id))

/-- The input loop of validateTransaction: resolves each input through getUtxo,
failing with the UTXO-not-found error of the first unresolved input, and sums
the resolved values. -/
def sumInputs (s : DBState) : List Input → Except String Int
  | [] => Except.ok 0
  | i :: rest =>
    match TransactionRepository.getUtxo s i.txId i.index with
    | none => Except.error ("UTXO not found or already spent: " ++ i.txId ++ ":" ++ toString i.index)
    | some u => (sumInputs s rest).map (fun r => u.2 + r)

/-- The output sum of validateTransaction. -/
def outputSum (outs : List Output) : Int := (outs.map Output.value).foldl (· + ·) 0

/-- BlockchainService.validateTransaction, with `none` for valid and `some e`
for the `error` field of an invalid result. -/
def validateTransaction (s : DBState) (tx : Transaction) : Option String :=
  match sumInputs s tx.inputs with
  | Except.error e => some e
  | Except.ok inSum =>
    let outSum := outputSum tx.outputs
    if 0 < tx.inputs.length ∧ inSum ≠ outSum then
      some ("Transaction " ++ tx.id ++ ": input sum (" ++ toString inSum ++
            ") does not equal output sum (" ++ toString outSum ++ ")")
    else none

/-- The per-transaction validation loop of validateBlock, returning the first failure. -/
def validateTxs (s : DBState) : List Transaction → Option String
  | [] => none
  | tx :: rest =>
    match validateTransaction s tx with
    | some e => some e
    | none => validateTxs s rest

/-- BlockchainService.validateBlock: height contiguity, then block id, then the
per-transaction checks, each short-circuiting. -/
def validateBlock (s : DBState) (b : Block) : Option String :=
  let currentHeight := BlockRepository.getCurrentHeight s
  if b.height ≠ currentHeight + 1 then
    some ("Invalid height. Expected " ++ toString (currentHeight + 1) ++
          ", got " ++ toString b.height)
  else
    let expectedId := calculateBlockHash b.height b.transactions
    if b.id ≠ expectedId then
      some ("Invalid block id. Expected " ++ expectedId ++ ", got " ++ b.id)
    else validateTxs s b.transactions

/-- The saveTransaction loop of processBlock, stopping at the first failed write
and keeping the partial state. -/
def saveTransactions (s : DBState) (blockId : String) (blockHeight : Int) :
    List Transaction → Option String × DBState
  | [] => (none, s)
  | tx :: rest =>
    match TransactionRepository.saveTransaction s tx blockId blockHeight with
    | (some e, s1) => (some e, s1)
    | (none, s1) => saveTransactions s1 blockId blockHeight rest

/-- BlockchainService.processBlock: validate, then saveBlock, then saveTransaction
per transaction.  The writes go through plain `db.query` calls with no
BEGIN/COMMIT unit, so a failing write keeps every earlier write. -/
def processBlock (s : DBState) (b : Block) : Option String × DBState :=
  match validateBlock s b with
  | some e => (some e, s)
  | none =>
    match BlockRepository.saveBlock s b.id b.height with
    | (some e, s1) => (some e, s1)
    | (none, s1) => saveTransactions s1 b.id b.height b.transactions

/-- BlockchainService.rollbackToHeight: rejects targets above the current height,
otherwise delegates to the repository rollback. -/
def rollbackToHeight (s : DBState) (height : Int) : Option String × DBState :=
  let currentHeight := BlockRepository.getCurrentHeight s
  if currentHeight < height then
    (some ("Cannot rollback to height " ++ toString height ++ ". Current height is " ++
           toString currentHeight), s)
  else
    (none, BlockRepository.rollbackToHeight s height)

end BlockchainService

namespace BlockController

/-- BlockController.rollback after query parsing: a parsed height below 0 is
rejected before the service is called (the NaN branch of `isNaN(height)` covers
non-numeric input and is outside this integer model). -/
def rollback (s : DBState) (height : Int) : Option String × DBState :=
  if height < 0 then
    (some "Invalid height parameter", s)
  else
    BlockchainService.rollbackToHeight s height

end BlockController

/-! Concrete ledger states and blocks used to evaluate the operations. -/

/-- The empty database. -/
def emptyState : DBState := ⟨[], [], []⟩

/-- A genesis value-creation transaction. -/
def gtx : Transaction := ⟨"t1", [], [⟨"addr1", 10⟩]⟩

/-- The genesis block carrying `gtx`, with its correct block id. -/
def gblock : Block := ⟨BlockchainService.calculateBlockHash 1 [gtx], 1, [gtx]⟩

/-- The ledger state reached by processing the genesis block on the empty database. -/
def postGenesis : DBState := (BlockchainService.processBlock emptyState gblock).2

/-- A transaction spending the genesis output (t1,0). -/
def t2spend : Transaction := ⟨"t2", [⟨"t1", 0⟩], [⟨"addr2", 10⟩]⟩

/-- A second transaction also spending (t1,0): a double spend inside one block. -/
def t3spend : Transaction := ⟨"t3", [⟨"t1", 0⟩], [⟨"addr3", 10⟩]⟩

/-- A height-2 block whose two transactions both spend (t1,0), with correct id. -/
def dsBlock : Block := ⟨BlockchainService.calculateBlockHash 2 [t2spend, t3spend], 2,
  [t2spend, t3spend]⟩

/-- A value-creation transaction inside a height-2 block. -/
def tCreate : Transaction := ⟨"t2", [], [⟨"addr2", 5⟩]⟩

/-- A transaction spending the output created by `tCreate` earlier in the same block. -/
def tChain : Transaction := ⟨"t3", [⟨"t2", 0⟩], [⟨"addr3", 5⟩]⟩

/-- A height-2 block with a sequential intra-block dependency, with correct id. -/
def chainBlock : Block := ⟨BlockchainService.calculateBlockHash 2 [tCreate, tChain], 2,
  [tCreate, tChain]⟩

/-- A value-creation transaction with id "a". -/
def dupTx : Transaction := ⟨"a", [], [⟨"addr1", 10⟩]⟩

/-- A height-1 block listing the same transaction twice; its id is still correct,
since the block id only commits to the id sequence. -/
def dupBlock : Block := ⟨BlockchainService.calculateBlockHash 1 [dupTx, dupTx], 1, [dupTx, dupTx]⟩

/-- The intermediate store state inside the processing of `dsBlock` on `postGenesis`:
after saveBlock and the saveTransaction call for `t2spend`, before the one for
`t3spend`.  These are exactly the first write steps `processBlock` performs. -/
def dsMidState : DBState :=
  (TransactionRepository.saveTransaction
    (BlockRepository.saveBlock postGenesis dsBlock.id 2).2 t2spend dsBlock.id 2).2

/-- A one-block ledger used to exercise rollback; no hashing is involved. -/
def smallLedger : DBState :=
  ⟨[⟨"B1", 1⟩], [⟨"t1", "B1", 1⟩], [⟨"t1", 0, "addr1", 5, false, none, 1⟩]⟩

/-- A state holding a single unspent output worth 10, for balance-rule checks. -/
def oneUtxoState : DBState := ⟨[], [], [⟨"t1", 0, "addr1", 10, false, none, 1⟩]⟩

/-! Relations used to track the effect of an apply across its write sequence. -/

/-- How a pre-apply utxo row can look during the apply of a block: either untouched,
or spend-marked by one of the transaction ids in `ids` after having been unspent. -/
def markedRel (ids : List String) (u v : UtxoRow) : Prop :=
  v = u ∨ (u.spent = false ∧ ∃ t ∈ ids, v = { u with spent := true, spentInTx := some t })

/-- Invariant of the store after saveBlock and the saveTransaction calls for the
prefix `done` of the transactions of `b`, starting from pre-state `s`: the utxo
table is the pointwise-marked old table followed by fresh rows of the new height,
the transaction table grew by one row per processed transaction, the processed
ids are fresh, and the block row was added. -/
def ApplyInv (s : DBState) (b : Block) (done : List Transaction) (cur : DBState) : Prop :=
  (∃ old fresh, cur.utxos = old ++ fresh ∧
     List.Forall₂ (markedRel (done.map Transaction.id)) s.utxos old ∧
     (∀ v ∈ fresh, v.blockHeight = b.height ∧ ∀ u ∈ s.utxos, rowKey v ≠ rowKey u)) ∧
  cur.transactions = s.transactions ++ done.map (fun tx => (⟨tx.id, b.id, b.height⟩ : TxRow)) ∧
  (∀ tx ∈ done, ∀ r ∈ s.transactions, r.id ≠ tx.id) ∧
  cur.blocks = s.blocks ++ [⟨b.id, b.height⟩]

set_option maxRecDepth 100000
set_option maxHeartbeats 2000000

/-! Sanity checks of the SHA-256 model against the FIPS 180-4 test vectors. -/

/-- SHA-256 of the empty string matches the published test vector. -/
theorem sha256Hex_empty_vector :
    sha256Hex "" = "e3b0c44298fc1c149afbf4c8996fb92427ae41e4649b934ca495991b7852b855" := by
  decide

/-- SHA-256 of "abc" matches the published test vector. -/
theorem sha256Hex_abc_vector :
    sha256Hex "abc" = "ba7816bf8f01cfea414140de5dae2223b00361a396177a9cb410ff61f20015ad" := by
  decide

/-! Claim theorems. -/

/-- C8 counterexample: the blocks listing ids "a","aa" and "aa","a" are reorderings
of distinct transaction ids, yet calculateBlockHash maps both to the same block id,
because the delimiter-free concatenation is "1aaa" either way; so reordering the
transaction ids does not always change the resulting id. -/
theorem c8_reorder_counterexample :
    [(⟨"aa", [], []⟩ : Transaction), ⟨"a", [], []⟩].map Transaction.id ≠
      [(⟨"a", [], []⟩ : Transaction), ⟨"aa", [], []⟩].map Transaction.id ∧
    BlockchainService.calculateBlockHash 1 [⟨"a", [], []⟩, ⟨"aa", [], []⟩] =
      BlockchainService.calculateBlockHash 1 [⟨"aa", [], []⟩, ⟨"a", [], []⟩] := by
  exact ⟨by decide, rfl⟩

/-- C8 (amended): calculateBlockHash is the lowercase hex SHA-256 digest of the
decimal height concatenated with the transaction ids in their given order with no
delimiter; it is a pure deterministic function of that concatenated string, so a
reordering changes the id only by changing the concatenation (orderings with equal
concatenations share the id), and a concrete swap of the distinct ids "t1","t2"
does change the id. -/
theorem c8_amended_hash_of_concat :
    (∀ (h : Int) (txs : List Transaction),
      BlockchainService.calculateBlockHash h txs =
        sha256Hex (toString h ++ String.join (txs.map Transaction.id))) ∧
    (∀ (h : Int) (txs txs2 : List Transaction),
      String.join (txs.map Transaction.id) = String.join (txs2.map Transaction.id) →
      BlockchainService.calculateBlockHash h txs = BlockchainService.calculateBlockHash h txs2) ∧
    BlockchainService.calculateBlockHash 1 [⟨"t1", [], []⟩, ⟨"t2", [], []⟩] ≠
      BlockchainService.calculateBlockHash 1 [⟨"t2", [], []⟩, ⟨"t1", [], []⟩] := by
  refine ⟨fun h txs => rfl, fun h txs txs2 hj => ?_, by decide⟩
  unfold BlockchainService.calculateBlockHash
  rw [hj]

/-- C8 amended witness: a single transaction with id "ab" and two transactions with
ids "a","b" concatenate identically, so the theorem yields equal block ids. -/
theorem c8_amended_witness :
    BlockchainService.calculateBlockHash 5 [⟨"ab", [], [⟨"z", 1⟩]⟩] =
      BlockchainService.calculateBlockHash 5 [⟨"a", [], []⟩, ⟨"b", [], []⟩] :=
  c8_amended_hash_of_concat.2.1 5 [⟨"ab", [], [⟨"z", 1⟩]⟩] [⟨"a", [], []⟩, ⟨"b", [], []⟩] rfl

/-- C9: the block id depends only on the height and the sequence of transaction
ids: lists with elementwise equal ids hash identically however their inputs and
outputs differ, so a block id does not commit to transaction contents. -/
theorem c9_hash_ignores_contents (h : Int) (txs txs2 : List Transaction)
    (hids : txs.map Transaction.id = txs2.map Transaction.id) :
    BlockchainService.calculateBlockHash h txs = BlockchainService.calculateBlockHash h txs2 := by
  unfold BlockchainService.calculateBlockHash
  rw [hids]

/-- C9 witness: two transactions share the id "t1" but have different inputs and
outputs; their singleton blocks get the same id. -/
theorem c9_witness :
    BlockchainService.calculateBlockHash 1 [⟨"t1", [], [⟨"addr1", 10⟩]⟩] =
      BlockchainService.calculateBlockHash 1 [⟨"t1", [⟨"x", 0⟩], [⟨"addr2", 999⟩]⟩] :=
  c9_hash_ignores_contents 1 [⟨"t1", [], [⟨"addr1", 10⟩]⟩] [⟨"t1", [⟨"x", 0⟩], [⟨"addr2", 999⟩]⟩]
    rfl

/-- C1 evaluated at its failing inputs: on the reachable state `postGenesis`,
validation of `dsBlock` succeeds although its second transaction spends the utxo
(t1,0) already spent by its first transaction (the earlier intra-block spend is
not reported to the later lookup), and validation of `chainBlock` fails with
UTXO-not-found although its second transaction spends the output created by the
first transaction of the same block. -/
theorem c1_snapshot_eval :
    BlockchainService.validateBlock postGenesis dsBlock = none ∧
    BlockchainService.validateBlock postGenesis chainBlock =
      some "UTXO not found or already spent: t2:0" := by
  decide

/-- C2 evaluated at its failing input: starting from the reachable state
`postGenesis`, processing `dsBlock` succeeds, and the spend-marking UPDATE sets
spentInTx of the record (t1,0) to "t2" and then re-marks it to "t3", since the
UPDATE carries no spent = FALSE condition; two transactions set spentInTx for the
same record. -/
theorem c2_remark_eval :
    (BlockchainService.processBlock emptyState gblock).1 = none ∧
    (BlockchainService.processBlock postGenesis dsBlock).1 = none ∧
    (dsMidState.utxos.find? (fun u => u.txId == "t1" && u.outputIndex == 0)).map
      UtxoRow.spentInTx = some (some "t2") ∧
    ((BlockchainService.processBlock postGenesis dsBlock).2.utxos.find?
      (fun u => u.txId == "t1" && u.outputIndex == 0)).map UtxoRow.spentInTx =
      some (some "t3") := by
  decide

/-- C3 evaluated at its failing input: `dupBlock` passes validation (validation
never checks transaction id uniqueness), its block row and first transaction are
written, and the second transaction insert fails on the primary key of
`transactions`; the failed unit leaves the block row, one transaction row and one
utxo row behind instead of restoring the empty store. -/
theorem c3_partial_write_eval :
    (BlockchainService.processBlock emptyState dupBlock).1 =
      some "duplicate key value violates unique constraint on transactions" ∧
    (BlockchainService.processBlock emptyState dupBlock).2 =
      ⟨[⟨dupBlock.id, 1⟩], [⟨"a", dupBlock.id, 1⟩], [⟨"a", 0, "addr1", 10, false, none, 1⟩]⟩ ∧
    (BlockchainService.processBlock emptyState dupBlock).2 ≠ emptyState := by
  decide

/-- C5: the height check is performed first and short-circuits every later check:
whenever the candidate height differs from currentHeight + 1, processBlock fails
with the height-mismatch error reporting expected and received heights and leaves
the state unchanged, whatever the block id or transactions are; and processBlock
never succeeds unless the height is exactly currentHeight + 1. -/
theorem c5_height_check_first (s : DBState) (b : Block) :
    (b.height ≠ BlockRepository.getCurrentHeight s + 1 →
      BlockchainService.processBlock s b =
        (some ("Invalid height. Expected " ++ toString (BlockRepository.getCurrentHeight s + 1) ++
               ", got " ++ toString b.height), s)) ∧
    ((BlockchainService.processBlock s b).1 = none →
      b.height = BlockRepository.getCurrentHeight s + 1) := by
  have hmain : ∀ _ : b.height ≠ BlockRepository.getCurrentHeight s + 1,
      BlockchainService.processBlock s b =
        (some ("Invalid height. Expected " ++ toString (BlockRepository.getCurrentHeight s + 1) ++
               ", got " ++ toString b.height), s) := by
    intro hne
    have hv : BlockchainService.validateBlock s b =
        some ("Invalid height. Expected " ++ toString (BlockRepository.getCurrentHeight s + 1) ++
              ", got " ++ toString b.height) := by
      simp only [BlockchainService.validateBlock]
      rw [if_pos hne]
    simp only [BlockchainService.processBlock, hv]
  refine ⟨hmain, fun hok => ?_⟩
  by_contra hne
  rw [hmain hne] at hok
  simp at hok

/-- C5 witness: with the ledger empty (current height 0), submitting a block of
height 2 is rejected with the height-mismatch error and the state is unchanged. -/
theorem c5_witness :
    BlockchainService.processBlock emptyState ⟨"x", 2, []⟩ =
      (some ("Invalid height. Expected " ++
             toString (BlockRepository.getCurrentHeight emptyState + 1) ++
             ", got " ++ toString (2 : Int)), emptyState) :=
  (c5_height_check_first emptyState ⟨"x", 2, []⟩).1 (by decide)

/-- C6: for a transaction with at least one input whose referenced utxos all
resolve (sumInputs returns their value sum), validation succeeds exactly when the
input sum equals the output sum and otherwise fails with the unbalanced
transaction error; a transaction with no inputs skips the equality check and
passes whatever its output sum is. -/
theorem c6_balance_rule (s : DBState) (tx : Transaction) :
    (∀ v : Int, tx.inputs ≠ [] → BlockchainService.sumInputs s tx.inputs = Except.ok v →
      ((v = BlockchainService.outputSum tx.outputs →
          BlockchainService.validateTransaction s tx = none) ∧
       (v ≠ BlockchainService.outputSum tx.outputs →
          BlockchainService.validateTransaction s tx =
            some ("Transaction " ++ tx.id ++ ": input sum (" ++ toString v ++
                  ") does not equal output sum (" ++
                  toString (BlockchainService.outputSum tx.outputs) ++ ")")))) ∧
    (tx.inputs = [] → BlockchainService.validateTransaction s tx = none) := by
  constructor
  · intro v hne hsum
    constructor
    · intro heq
      simp only [BlockchainService.validateTransaction, hsum]
      rw [if_neg]
      intro hc
      exact hc.2 heq
    · intro hne2
      simp only [BlockchainService.validateTransaction, hsum]
      rw [if_pos ⟨List.length_pos.mpr hne, hne2⟩]
  · intro hnil
    simp only [BlockchainService.validateTransaction, hnil, BlockchainService.sumInputs]
    rw [if_neg]
    intro hc
    simp at hc

/-- C6 witness: against a store holding the unspent output (t1,0) of value 10, a
one-input transaction with output sum 10 validates, the same transaction with
output sum 9 fails with the unbalanced error, and a zero-input transaction with
output sum 999 validates. -/
theorem c6_witness :
    BlockchainService.validateTransaction oneUtxoState ⟨"tx9", [⟨"t1", 0⟩], [⟨"a", 10⟩]⟩ =
      none ∧
    BlockchainService.validateTransaction oneUtxoState ⟨"tx9", [⟨"t1", 0⟩], [⟨"a", 9⟩]⟩ =
      some "Transaction tx9: input sum (10) does not equal output sum (9)" ∧
    BlockchainService.validateTransaction oneUtxoState ⟨"tx8", [], [⟨"a", 999⟩]⟩ = none := by
  refine ⟨((c6_balance_rule oneUtxoState _).1 10 (by decide) (by rfl)).1 (by decide),
    ?_, (c6_balance_rule oneUtxoState ⟨"tx8", [], [⟨"a", 999⟩]⟩).2 rfl⟩
  exact ((c6_balance_rule oneUtxoState _).1 10 (by decide) (by rfl)).2 (by decide)

/-! Facts about the SQL MAX aggregate modelled by a fold. -/

/-- The fold of max is at least its initial value. -/
theorem foldl_max_init_le (l : List Int) : ∀ a : Int, a ≤ l.foldl max a := by
  induction l with
  | nil => intro a; simp
  | cons b t ih =>
    intro a
    simp only [List.foldl_cons]
    exact le_trans (le_max_left a b) (ih (max a b))

/-- The fold of max is at least every list element. -/
theorem foldl_max_mem_le (l : List Int) : ∀ (a x : Int), x ∈ l → x ≤ l.foldl max a := by
  induction l with
  | nil => intro a x hx; simp at hx
  | cons b t ih =>
    intro a x hx
    simp only [List.foldl_cons]
    rcases List.mem_cons.mp hx with h | h
    · subst h
      exact le_trans (le_max_right a x) (foldl_max_init_le t (max a x))
    · exact ih (max a b) x h

/-- The fold of max is bounded by any bound of the initial value and the elements. -/
theorem foldl_max_le (l : List Int) :
    ∀ a c : Int, a ≤ c → (∀ x ∈ l, x ≤ c) → l.foldl max a ≤ c := by
  induction l with
  | nil => intro a c ha _; simpa using ha
  | cons b t ih =>
    intro a c ha hall
    simp only [List.foldl_cons]
    exact ih (max a b) c (max_le ha (hall b (List.mem_cons_self b t)))
      (fun x hx => hall x (List.mem_cons_of_mem b hx))

/-- Every block row height is at most the current height. -/
theorem height_le_getCurrentHeight (s : DBState) (r : BlockRow) (hr : r ∈ s.blocks) :
    r.height ≤ BlockRepository.getCurrentHeight s := by
  rcases hb : s.blocks with _ | ⟨r0, rest⟩
  · rw [hb] at hr; simp at hr
  · rw [hb] at hr
    have hgc : BlockRepository.getCurrentHeight s =
        (rest.map BlockRow.height).foldl max r0.height := by
      simp only [BlockRepository.getCurrentHeight, hb, List.map_cons]
    rw [hgc]
    rcases List.mem_cons.mp hr with h | h
    · subst h; exact foldl_max_init_le _ _
    · exact foldl_max_mem_le _ _ _ (List.mem_map_of_mem BlockRow.height h)

/-- When the blocks table is empty the current height is 0. -/
theorem getCurrentHeight_of_empty (s : DBState) (hb : s.blocks = []) :
    BlockRepository.getCurrentHeight s = 0 := by
  simp [BlockRepository.getCurrentHeight, hb]

/-- If some block row has height h and all rows have height at most h, the current
height is exactly h. -/
theorem getCurrentHeight_eq_of (s : DBState) (h : Int)
    (hmem : ∃ r ∈ s.blocks, r.height = h) (hle : ∀ r ∈ s.blocks, r.height ≤ h) :
    BlockRepository.getCurrentHeight s = h := by
  obtain ⟨r, hr, hrh⟩ := hmem
  have hlb : h ≤ BlockRepository.getCurrentHeight s := by
    rw [← hrh]; exact height_le_getCurrentHeight s r hr
  rcases hb : s.blocks with _ | ⟨r0, rest⟩
  · rw [hb] at hr; simp at hr
  · have hgc : BlockRepository.getCurrentHeight s =
        (rest.map BlockRow.height).foldl max r0.height := by
      simp only [BlockRepository.getCurrentHeight, hb, List.map_cons]
    have hub : BlockRepository.getCurrentHeight s ≤ h := by
      rw [hgc]
      apply foldl_max_le
      · exact hle r0 (by rw [hb]; exact List.mem_cons_self _ _)
      · intro x hx
        obtain ⟨rr, hrr, hrx⟩ := List.mem_map.mp hx
        rw [← hrx]
        exact hle rr (by rw [hb]; exact List.mem_cons_of_mem _ hrr)
    omega

/-- When all block heights are at least 1 the current height is nonnegative. -/
theorem getCurrentHeight_nonneg (s : DBState) (hb : ∀ r ∈ s.blocks, 1 ≤ r.height) :
    0 ≤ BlockRepository.getCurrentHeight s := by
  rcases hbs : s.blocks with _ | ⟨r0, rest⟩
  · rw [getCurrentHeight_of_empty s hbs]
  · have h1 : 1 ≤ r0.height := hb r0 (by rw [hbs]; exact List.mem_cons_self _ _)
    have h2 := height_le_getCurrentHeight s r0 (by rw [hbs]; exact List.mem_cons_self _ _)
    omega

/-- The rollback reset of a utxo row never changes its creation height. -/
theorem reset_preserves_blockHeight (c : Bool) (u : UtxoRow) :
    ((if c then { u with spent := false, spentInTx := none } else u) : UtxoRow).blockHeight =
      u.blockHeight := by
  cases c <;> rfl

/-- C10: a negative target height passes the service-layer bound check (which only
rejects targets above the current height) and deletes every block, transaction and
utxo record, leaving the empty ledger; the negative-height rejection happens only
in the HTTP controller, before the service is called. -/
theorem c10_negative_rollback (s : DBState) (h : Int) (hneg : h < 0)
    (hb : ∀ r ∈ s.blocks, 1 ≤ r.height)
    (ht : ∀ r ∈ s.transactions, 1 ≤ r.blockHeight)
    (hu : ∀ u ∈ s.utxos, 1 ≤ u.blockHeight) :
    BlockchainService.rollbackToHeight s h = (none, emptyState) ∧
    BlockController.rollback s h = (some "Invalid height parameter", s) := by
  have hcur : 0 ≤ BlockRepository.getCurrentHeight s := getCurrentHeight_nonneg s hb
  constructor
  · have hrepo : BlockRepository.rollbackToHeight s h = emptyState := by
      simp only [BlockRepository.rollbackToHeight, emptyState]
      have h1 : s.blocks.filter (fun r => decide (r.height ≤ h)) = [] := by
        refine List.filter_eq_nil_iff.mpr (fun r hr => ?_)
        have := hb r hr
        simp only [decide_eq_true_eq]
        omega
      have h2 : s.transactions.filter (fun t => decide (t.blockHeight ≤ h)) = [] := by
        refine List.filter_eq_nil_iff.mpr (fun t htm => ?_)
        have := ht t htm
        simp only [decide_eq_true_eq]
        omega
      have h3 : ∀ (f : UtxoRow → UtxoRow), (∀ u, (f u).blockHeight = u.blockHeight) →
          (s.utxos.map f).filter (fun u => decide (u.blockHeight ≤ h)) = [] := by
        intro f hf
        refine List.filter_eq_nil_iff.mpr (fun v hv => ?_)
        obtain ⟨u, hum, hvu⟩ := List.mem_map.mp hv
        have h4 := hu u hum
        simp only [decide_eq_true_eq]
        rw [← hvu, hf u]
        omega
      rw [h1, h2, h3 _ (fun u => reset_preserves_blockHeight _ u)]
    simp only [BlockchainService.rollbackToHeight]
    rw [if_neg (by omega), hrepo]
  · simp only [BlockController.rollback]
    rw [if_pos hneg]

/-- C10 witness: on a one-block ledger and target height -1, the service empties
the ledger without failing while the controller rejects the request. -/
theorem c10_witness :
    BlockchainService.rollbackToHeight smallLedger (-1) = (none, emptyState) ∧
    BlockController.rollback smallLedger (-1) = (some "Invalid height parameter", smallLedger) :=
  c10_negative_rollback smallLedger (-1) (by decide) (by decide) (by decide) (by decide)

/-- Rolling back to the current height leaves the store unchanged. -/
theorem rollbackRepo_current_noop (s : DBState)
    (ht : ∀ r ∈ s.transactions, r.blockHeight ≤ BlockRepository.getCurrentHeight s)
    (hu : ∀ u ∈ s.utxos, u.blockHeight ≤ BlockRepository.getCurrentHeight s) :
    BlockRepository.rollbackToHeight s (BlockRepository.getCurrentHeight s) = s := by
  simp only [BlockRepository.rollbackToHeight]
  have hft : s.transactions.filter
      (fun t => decide (BlockRepository.getCurrentHeight s < t.blockHeight)) = [] := by
    refine List.filter_eq_nil_iff.mpr (fun t htm => ?_)
    have := ht t htm
    simp only [decide_eq_true_eq]
    omega
  rw [hft]
  have hmap : s.utxos.map (fun u =>
      if BlockRepository.spentByRolled (([] : List TxRow).map TxRow.id) u then
        { u with spent := false, spentInTx := none }
      else u) = s.utxos := by
    have hcongr : ∀ u ∈ s.utxos,
        (if BlockRepository.spentByRolled (([] : List TxRow).map TxRow.id) u then
          { u with spent := false, spentInTx := none }
        else u) = u := by
      intro u _
      cases hsp : u.spentInTx <;>
        simp [BlockRepository.spentByRolled, hsp, List.contains]
    rw [List.map_congr_left hcongr, List.map_id']
  rw [hmap]
  have h1 : s.blocks.filter
      (fun r => decide (r.height ≤ BlockRepository.getCurrentHeight s)) = s.blocks := by
    refine List.filter_eq_self.mpr (fun r hr => ?_)
    simp only [decide_eq_true_eq]
    exact height_le_getCurrentHeight s r hr
  have h2 : s.transactions.filter
      (fun t => decide (t.blockHeight ≤ BlockRepository.getCurrentHeight s)) = s.transactions := by
    refine List.filter_eq_self.mpr (fun t htm => ?_)
    simp only [decide_eq_true_eq]
    exact ht t htm
  have h3 : s.utxos.filter
      (fun u => decide (u.blockHeight ≤ BlockRepository.getCurrentHeight s)) = s.utxos := by
    refine List.filter_eq_self.mpr (fun u hum => ?_)
    simp only [decide_eq_true_eq]
    exact hu u hum
  rw [h1, h2, h3]

/-- C7: the rollback endpoint requires 0 ≤ target ≤ currentHeight and fails
without modifying the state when the precondition is violated; for in-bounds
targets it succeeds and the current height afterwards equals the target; and
rolling back to the current height is a no-op that returns the unchanged state
with that same height. -/
theorem c7_rollback_bounds (s : DBState) (h : Int)
    (hb1 : ∀ r ∈ s.blocks, 1 ≤ r.height)
    (hcont : ∀ k : Int, 1 ≤ k → k ≤ BlockRepository.getCurrentHeight s →
      ∃ r ∈ s.blocks, r.height = k)
    (ht : ∀ r ∈ s.transactions, r.blockHeight ≤ BlockRepository.getCurrentHeight s)
    (hu : ∀ u ∈ s.utxos, u.blockHeight ≤ BlockRepository.getCurrentHeight s) :
    (¬ (0 ≤ h ∧ h ≤ BlockRepository.getCurrentHeight s) →
      (BlockController.rollback s h).1.isSome = true ∧ (BlockController.rollback s h).2 = s) ∧
    (0 ≤ h → h ≤ BlockRepository.getCurrentHeight s →
      (BlockController.rollback s h).1 = none ∧
      BlockRepository.getCurrentHeight (BlockController.rollback s h).2 = h) ∧
    BlockController.rollback s (BlockRepository.getCurrentHeight s) = (none, s) := by
  have hcur : 0 ≤ BlockRepository.getCurrentHeight s := getCurrentHeight_nonneg s hb1
  refine ⟨?_, ?_, ?_⟩
  · intro hviol
    by_cases hlt : h < 0
    · simp only [BlockController.rollback]
      rw [if_pos hlt]
      exact ⟨rfl, rfl⟩
    · have hgt : BlockRepository.getCurrentHeight s < h := by omega
      simp only [BlockController.rollback, BlockchainService.rollbackToHeight]
      rw [if_neg hlt, if_pos hgt]
      exact ⟨rfl, rfl⟩
  · intro h0 hle
    have hctrl : BlockController.rollback s h = (none, BlockRepository.rollbackToHeight s h) := by
      simp only [BlockController.rollback, BlockchainService.rollbackToHeight]
      rw [if_neg (by omega : ¬ h < 0), if_neg (by omega : ¬ BlockRepository.getCurrentHeight s < h)]
    rw [hctrl]
    refine ⟨rfl, ?_⟩
    have hblocks : (BlockRepository.rollbackToHeight s h).blocks =
        s.blocks.filter (fun r => decide (r.height ≤ h)) := rfl
    rcases lt_or_ge h 1 with hsmall | hbig
    · have hz : h = 0 := by omega
      subst hz
      have hnil : s.blocks.filter (fun r => decide (r.height ≤ (0 : Int))) = [] := by
        refine List.filter_eq_nil_iff.mpr (fun r hr => ?_)
        have := hb1 r hr
        simp only [decide_eq_true_eq]
        omega
      exact getCurrentHeight_of_empty _ (hblocks.trans hnil)
    · obtain ⟨r, hrm, hrh⟩ := hcont h hbig hle
      refine getCurrentHeight_eq_of _ h ⟨r, ?_, hrh⟩ ?_
      · rw [hblocks]
        exact List.mem_filter.mpr ⟨hrm, by simp [hrh]⟩
      · intro r2 hr2
        rw [hblocks] at hr2
        have := (List.mem_filter.mp hr2).2
        simpa using this
  · have hnoop := rollbackRepo_current_noop s ht hu
    simp only [BlockController.rollback, BlockchainService.rollbackToHeight]
    rw [if_neg (by omega : ¬ BlockRepository.getCurrentHeight s < 0),
      if_neg (lt_irrefl (BlockRepository.getCurrentHeight s)), hnoop]

/-- C7 witness: on the one-block ledger, rolling back to 0 succeeds and leaves
height 0, rolling back to 2 fails keeping the state, and rolling back to the
current height 1 returns the unchanged ledger. -/
theorem c7_witness :
    ((BlockController.rollback smallLedger 0).1 = none ∧
      BlockRepository.getCurrentHeight (BlockController.rollback smallLedger 0).2 = 0) ∧
    ((BlockController.rollback smallLedger 2).1.isSome = true ∧
      (BlockController.rollback smallLedger 2).2 = smallLedger) ∧
    BlockController.rollback smallLedger (BlockRepository.getCurrentHeight smallLedger) =
      (none, smallLedger) := by
  have hcont : ∀ k : Int, 1 ≤ k → k ≤ BlockRepository.getCurrentHeight smallLedger →
      ∃ r ∈ smallLedger.blocks, r.height = k := by
    intro k hk1 hk2
    have hgc : BlockRepository.getCurrentHeight smallLedger = 1 := by decide
    rw [hgc] at hk2
    have hk : k = 1 := by omega
    subst hk
    exact ⟨⟨"B1", 1⟩, by decide, rfl⟩
  refine ⟨(c7_rollback_bounds smallLedger 0 (by decide) hcont (by decide) (by decide)).2.1
      (by decide) ?_, ?_, ?_⟩
  · have hgc : BlockRepository.getCurrentHeight smallLedger = 1 := by decide
    omega
  · refine (c7_rollback_bounds smallLedger 2 (by decide) hcont (by decide) (by decide)).1 ?_
    have hgc : BlockRepository.getCurrentHeight smallLedger = 1 := by decide
    omega
  · exact (c7_rollback_bounds smallLedger 0 (by decide) hcont (by decide) (by decide)).2.2

/-! Machinery for the apply/rollback round trip. -/

/-- A marked row keeps the key, creation height, address and value of the original. -/
theorem markedRel_fields (ids : List String) (u v : UtxoRow) (h : markedRel ids u v) :
    v.txId = u.txId ∧ v.outputIndex = u.outputIndex ∧ v.blockHeight = u.blockHeight := by
  rcases h with rfl | ⟨_, t, _, rfl⟩ <;> exact ⟨rfl, rfl, rfl⟩

/-- markedRel is monotone in the id set. -/
theorem markedRel_mono (ids ids2 : List String) (hsub : ∀ t ∈ ids, t ∈ ids2) (u v : UtxoRow)
    (h : markedRel ids u v) : markedRel ids2 u v := by
  rcases h with rfl | ⟨hs, t, htm, rfl⟩
  · exact Or.inl rfl
  · exact Or.inr ⟨hs, t, hsub t htm, rfl⟩

/-- A left member of a Forall₂ pair has a related right member. -/
theorem forall₂_mem_left {α β : Type} {R : α → β → Prop} :
    ∀ {l1 : List α} {l2 : List β}, List.Forall₂ R l1 l2 → ∀ a ∈ l1, ∃ b ∈ l2, R a b := by
  intro l1 l2 h
  induction h with
  | nil => intro a ha; simp at ha
  | cons hR hrest ih =>
    intro a ha
    rcases List.mem_cons.mp ha with rfl | hm
    · exact ⟨_, List.mem_cons_self _ _, hR⟩
    · obtain ⟨b, hbm, hab⟩ := ih a hm
      exact ⟨b, List.mem_cons_of_mem _ hbm, hab⟩

/-- Mapping the right side of a Forall₂ with a member-wise inverse recovers the left. -/
theorem forall₂_map_eq_mem {α β : Type} {R : α → β → Prop} (f : β → α) :
    ∀ {l1 : List α} {l2 : List β}, List.Forall₂ R l1 l2 →
      (∀ a ∈ l1, ∀ b, R a b → f b = a) → l2.map f = l1 := by
  intro l1 l2 h
  induction h with
  | nil => intro _; rfl
  | @cons a b l1t l2t hR hrest ih =>
    intro hinv
    simp only [List.map_cons]
    rw [hinv a (List.mem_cons_self _ _) b hR,
      ih (fun x hx c hc => hinv x (List.mem_cons_of_mem _ hx) c hc)]

/-- A successful findUnspentRow returns a member row with the requested key, unspent. -/
theorem findUnspentRow_some (s : DBState) (txId : String) (idx : Int) (u : UtxoRow)
    (h : TransactionRepository.findUnspentRow s txId idx = some u) :
    u ∈ s.utxos ∧ u.txId = txId ∧ u.outputIndex = idx ∧ u.spent = false := by
  have hmem := List.mem_of_find?_eq_some h
  have hp := List.find?_some h
  simp only [Bool.and_eq_true, beq_iff_eq, Bool.not_eq_true'] at hp
  exact ⟨hmem, hp.1.1, hp.1.2, hp.2⟩

/-- When the input loop resolves, every input references an unspent member row. -/
theorem sumInputs_ok_resolves (s : DBState) :
    ∀ (l : List Input) (v : Int), BlockchainService.sumInputs s l = Except.ok v →
      ∀ i ∈ l, ∃ u ∈ s.utxos, u.txId = i.txId ∧ u.outputIndex = i.index ∧ u.spent = false := by
  intro l
  induction l with
  | nil => intro v _ i hi; simp at hi
  | cons j rest ih =>
    intro v hok i hi
    simp only [BlockchainService.sumInputs] at hok
    rcases hf : TransactionRepository.findUnspentRow s j.txId j.index with _ | u
    · rw [show TransactionRepository.getUtxo s j.txId j.index = none by
        simp [TransactionRepository.getUtxo, hf]] at hok
      simp at hok
    · rw [show TransactionRepository.getUtxo s j.txId j.index = some (u.address, u.value) by
        simp [TransactionRepository.getUtxo, hf]] at hok
      rcases List.mem_cons.mp hi with rfl | hmem
      · obtain ⟨hm, h1, h2, h3⟩ := findUnspentRow_some s i.txId i.index u hf
        exact ⟨u, hm, h1, h2, h3⟩
      · rcases hrest : BlockchainService.sumInputs s rest with e | w
        · rw [hrest] at hok; simp [Except.map] at hok
        · exact ih w hrest i hmem

/-- A transaction that validates has a resolving input sum. -/
theorem validateTransaction_none_sum (s : DBState) (tx : Transaction)
    (h : BlockchainService.validateTransaction s tx = none) :
    ∃ v, BlockchainService.sumInputs s tx.inputs = Except.ok v := by
  rcases hs : BlockchainService.sumInputs s tx.inputs with e | v
  · simp only [BlockchainService.validateTransaction, hs] at h
    simp at h
  · exact ⟨v, rfl⟩

/-- A successful per-transaction loop validates every listed transaction. -/
theorem validateTxs_none (s : DBState) :
    ∀ l, BlockchainService.validateTxs s l = none →
      ∀ tx ∈ l, BlockchainService.validateTransaction s tx = none := by
  intro l
  induction l with
  | nil => intro _ tx htx; simp at htx
  | cons t rest ih =>
    intro hnone tx htx
    simp only [BlockchainService.validateTxs] at hnone
    rcases hv : BlockchainService.validateTransaction s t with _ | e
    · rw [hv] at hnone
      rcases List.mem_cons.mp htx with rfl | hmem
      · exact hv
      · exact ih hnone tx hmem
    · rw [hv] at hnone; simp at hnone

/-- A validated block has the contiguous height and validating transactions. -/
theorem validateBlock_none (s : DBState) (b : Block)
    (h : BlockchainService.validateBlock s b = none) :
    b.height = BlockRepository.getCurrentHeight s + 1 ∧
    BlockchainService.validateTxs s b.transactions = none := by
  simp only [BlockchainService.validateBlock] at h
  by_cases h1 : b.height ≠ BlockRepository.getCurrentHeight s + 1
  · rw [if_pos h1] at h; simp at h
  · rw [if_neg h1] at h
    by_cases h2 : b.id ≠ BlockchainService.calculateBlockHash b.height b.transactions
    · rw [if_pos h2] at h; simp at h
    · rw [if_neg h2] at h
      exact ⟨not_ne_iff.mp h1, h⟩

/-- A successful saveBlock appends the block row and changes nothing else. -/
theorem saveBlock_ok (s : DBState) (id : String) (ht : Int) (s1 : DBState)
    (h : BlockRepository.saveBlock s id ht = (none, s1)) :
    s1 = { s with blocks := s.blocks ++ [⟨id, ht⟩] } := by
  simp only [BlockRepository.saveBlock] at h
  by_cases hc : s.blocks.any (fun r => r.id == id || r.height == ht) = true
  · rw [if_pos hc] at h; simp at h
  · rw [if_neg hc] at h
    injection h with _ hb
    exact hb.symm

/-- A successful transaction-row insert appends the row; the id was fresh. -/
theorem insertTransactionRow_ok (s : DBState) (id bid : String) (bh : Int) (s1 : DBState)
    (h : TransactionRepository.insertTransactionRow s id bid bh = (none, s1)) :
    s1 = { s with transactions := s.transactions ++ [⟨id, bid, bh⟩] } ∧
    ∀ r ∈ s.transactions, r.id ≠ id := by
  simp only [TransactionRepository.insertTransactionRow] at h
  by_cases h1 : s.transactions.any (fun r => r.id == id) = true
  · rw [if_pos h1] at h; simp at h
  · rw [if_neg h1] at h
    by_cases h2 : (!(s.blocks.any (fun r => r.id == bid))) = true
    · rw [if_pos h2] at h; simp at h
    · rw [if_neg h2] at h
      injection h with _ hb
      refine ⟨hb.symm, fun r hr heq => h1 ?_⟩
      exact List.any_eq_true.mpr ⟨r, hr, by simp [heq]⟩

/-- A successful output-insert loop appends unspent rows of the given height whose
keys are fresh with respect to the starting utxo table. -/
theorem insertOutputs_ok (txId : String) (bh : Int) :
    ∀ (outs : List Output) (s : DBState) (i : Int) (s1 : DBState),
    TransactionRepository.insertOutputs s txId bh i outs = (none, s1) →
    ∃ ns, s1.utxos = s.utxos ++ ns ∧ s1.transactions = s.transactions ∧
      s1.blocks = s.blocks ∧
      ∀ v ∈ ns, v.blockHeight = bh ∧ v.spent = false ∧
        ∀ w ∈ s.utxos, rowKey v ≠ rowKey w := by
  intro outs
  induction outs with
  | nil =>
    intro s i s1 h
    simp only [TransactionRepository.insertOutputs] at h
    injection h with _ hb
    exact ⟨[], by rw [← hb]; simp, by rw [← hb], by rw [← hb], by simp⟩
  | cons o rest ih =>
    intro s i s1 h
    simp only [TransactionRepository.insertOutputs, TransactionRepository.insertUtxoRow] at h
    by_cases hc : s.utxos.any (fun r => r.txId == txId && r.outputIndex == i) = true
    · rw [if_pos hc] at h; simp at h
    · rw [if_neg hc] at h
      obtain ⟨ns, hns, htr, hbl, hprops⟩ := ih _ (i + 1) s1 h
      refine ⟨⟨txId, i, o.address, o.value, false, none, bh⟩ :: ns, ?_, by simpa using htr,
        by simpa using hbl, ?_⟩
      · rw [hns]; simp
      · intro v hv
        rcases List.mem_cons.mp hv with rfl | hvm
        · refine ⟨rfl, rfl, fun w hw heq => hc ?_⟩
          refine List.any_eq_true.mpr ⟨w, hw, ?_⟩
          simp only [rowKey, Prod.mk.injEq] at heq
          simp [heq.1.symm, heq.2.symm]
        · obtain ⟨hb1, hb2, hb3⟩ := hprops v hvm
          exact ⟨hb1, hb2, fun w hw => hb3 w (List.mem_append_left _ hw)⟩

/-- Marking one validated input key keeps the marked-table relation, provided the
key determines the row (unique keys) and the key belongs to an unspent row. -/
theorem markSpent_rel (ids : List String) (spender : String) (hsp : spender ∈ ids)
    (iTx : String) (iIdx : Int) (u0 : UtxoRow)
    (hu0 : u0.txId = iTx ∧ u0.outputIndex = iIdx ∧ u0.spent = false) :
    ∀ (l1 old : List UtxoRow), List.Forall₂ (markedRel ids) l1 old →
      (∀ u ∈ l1, rowKey u = rowKey u0 → u = u0) →
      List.Forall₂ (markedRel ids) l1 (old.map (fun v =>
        if v.txId == iTx && v.outputIndex == iIdx then
          { v with spent := true, spentInTx := some spender }
        else v)) := by
  intro l1 old h
  induction h with
  | nil => intro _; exact List.Forall₂.nil
  | @cons a b l1t oldt hR hrest ih =>
    intro hkey
    simp only [List.map_cons]
    refine List.Forall₂.cons ?_ (ih (fun x hx => hkey x (List.mem_cons_of_mem _ hx)))
    by_cases hc : (b.txId == iTx && b.outputIndex == iIdx) = true
    · rw [if_pos hc]
      simp only [Bool.and_eq_true, beq_iff_eq] at hc
      have hka : rowKey a = rowKey u0 := by
        obtain ⟨h1, h2, _⟩ := markedRel_fields ids a b hR
        simp [rowKey, ← h1, ← h2, hc.1, hc.2, hu0.1, hu0.2]
      have hau0 : a = u0 := hkey a (List.mem_cons_self _ _) hka
      rcases hR with rfl | ⟨has, t, htm, rfl⟩
      · exact Or.inr ⟨by rw [hau0]; exact hu0.2.2, spender, hsp, rfl⟩
      · exact Or.inr ⟨has, spender, hsp, rfl⟩
    · rw [if_neg hc]
      exact hR

/-- The input-marking loop of saveTransaction keeps the invariant decomposition of
the utxo table and does not touch fresh rows, transactions or blocks. -/
theorem markInputs_inv (s : DBState) (bHeight : Int) (ids : List String) (spender : String)
    (hsp : spender ∈ ids) (hnodup : (s.utxos.map rowKey).Nodup) :
    ∀ (inputs : List Input) (cur : DBState) (old fresh : List UtxoRow),
    cur.utxos = old ++ fresh →
    List.Forall₂ (markedRel ids) s.utxos old →
    (∀ v ∈ fresh, v.blockHeight = bHeight ∧ ∀ u ∈ s.utxos, rowKey v ≠ rowKey u) →
    (∀ i ∈ inputs, ∃ u ∈ s.utxos, u.txId = i.txId ∧ u.outputIndex = i.index ∧
      u.spent = false) →
    ∃ old2, (TransactionRepository.markInputs cur spender inputs).utxos = old2 ++ fresh ∧
      List.Forall₂ (markedRel ids) s.utxos old2 ∧
      (TransactionRepository.markInputs cur spender inputs).transactions = cur.transactions ∧
      (TransactionRepository.markInputs cur spender inputs).blocks = cur.blocks := by
  intro inputs
  induction inputs with
  | nil =>
    intro cur old fresh hcur hrel hfresh _
    exact ⟨old, hcur, hrel, rfl, rfl⟩
  | cons j rest ih =>
    intro cur old fresh hcur hrel hfresh hval
    obtain ⟨u0, hu0m, hu01, hu02, hu03⟩ := hval j (List.mem_cons_self _ _)
    have hfv : ∀ v ∈ fresh, (if v.txId == j.txId && v.outputIndex == j.index then
        { v with spent := true, spentInTx := some spender } else v) = v := by
      intro v hv
      rw [if_neg]
      intro hc
      simp only [Bool.and_eq_true, beq_iff_eq] at hc
      exact (hfresh v hv).2 u0 hu0m (by simp [rowKey, hc.1, hc.2, hu01, hu02])
    have hstep : (TransactionRepository.markSpent cur spender j.txId j.index).utxos =
        (old.map (fun v => if v.txId == j.txId && v.outputIndex == j.index then
          { v with spent := true, spentInTx := some spender } else v)) ++ fresh := by
      simp only [TransactionRepository.markSpent, hcur, List.map_append]
      rw [List.map_congr_left hfv, List.map_id']
    have hkey : ∀ u ∈ s.utxos, rowKey u = rowKey u0 → u = u0 :=
      fun u hu hk => List.inj_on_of_nodup_map hnodup hu hu0m hk
    have hrel2 := markSpent_rel ids spender hsp j.txId j.index u0 ⟨hu01, hu02, hu03⟩
      s.utxos old hrel hkey
    have hrec := ih (TransactionRepository.markSpent cur spender j.txId j.index)
      (old.map (fun v => if v.txId == j.txId && v.outputIndex == j.index then
        { v with spent := true, spentInTx := some spender } else v)) fresh
      hstep hrel2 hfresh (fun i hi => hval i (List.mem_cons_of_mem _ hi))
    simpa only [TransactionRepository.markInputs] using hrec

/-- saveTransaction of a validated transaction preserves the apply invariant. -/
theorem saveTransaction_inv (s : DBState) (b : Block) (done : List Transaction)
    (tx : Transaction) (cur cur2 : DBState)
    (hinv : ApplyInv s b done cur)
    (hvtx : BlockchainService.validateTransaction s tx = none)
    (hnodup : (s.utxos.map rowKey).Nodup)
    (hsave : TransactionRepository.saveTransaction cur tx b.id b.height = (none, cur2)) :
    ApplyInv s b (done ++ [tx]) cur2 := by
  obtain ⟨⟨old, fresh, hcur, hrel, hfresh⟩, htx, hfreshIds, hbl⟩ := hinv
  simp only [TransactionRepository.saveTransaction] at hsave
  rcases h1 : TransactionRepository.insertTransactionRow cur tx.id b.id b.height with ⟨e1, c1⟩
  rw [h1] at hsave
  cases e1 with
  | some e => simp at hsave
  | none =>
    obtain ⟨hc1, hfreshId⟩ := insertTransactionRow_ok cur tx.id b.id b.height c1 h1
    dsimp only at hsave
    rcases h2 : TransactionRepository.insertOutputs c1 tx.id b.height 0 tx.outputs with ⟨e2, c2m⟩
    rw [h2] at hsave
    cases e2 with
    | some e => simp at hsave
    | none =>
      obtain ⟨ns, hns, htr2, hbl2, hnsp⟩ :=
        insertOutputs_ok tx.id b.height tx.outputs c1 0 c2m h2
      have hc1u : c1.utxos = cur.utxos := by rw [hc1]
      have hc1b : c1.blocks = cur.blocks := by rw [hc1]
      have hc1t : c1.transactions = cur.transactions ++ [⟨tx.id, b.id, b.height⟩] := by rw [hc1]
      have hsub : ∀ t ∈ done.map Transaction.id, t ∈ (done ++ [tx]).map Transaction.id := by
        intro t htm; rw [List.map_append]; exact List.mem_append_left _ htm
      have hrel2 : List.Forall₂ (markedRel ((done ++ [tx]).map Transaction.id)) s.utxos old :=
        hrel.imp (fun a b0 hab => markedRel_mono _ _ hsub a b0 hab)
      have hsp : tx.id ∈ (done ++ [tx]).map Transaction.id := by
        rw [List.map_append]
        exact List.mem_append_right _ (by simp)
      have hfresh2 : ∀ v ∈ fresh ++ ns, v.blockHeight = b.height ∧
          ∀ u ∈ s.utxos, rowKey v ≠ rowKey u := by
        intro v hv
        rcases List.mem_append.mp hv with hvf | hvn
        · exact hfresh v hvf
        · obtain ⟨hh, _, hk⟩ := hnsp v hvn
          refine ⟨hh, fun u hu => ?_⟩
          obtain ⟨w, hwm, hw⟩ := forall₂_mem_left hrel u hu
          obtain ⟨hw1, hw2, _⟩ := markedRel_fields _ u w hw
          have hwk : rowKey w = rowKey u := by simp [rowKey, hw1, hw2]
          have hwin : w ∈ c1.utxos := by
            rw [hc1u, hcur]; exact List.mem_append_left _ hwm
          rw [← hwk]
          exact hk w hwin
      have hc2u : c2m.utxos = old ++ (fresh ++ ns) := by
        rw [hns, hc1u, hcur, List.append_assoc]
      obtain ⟨v, hvsum⟩ := validateTransaction_none_sum s tx hvtx
      have hvalin := sumInputs_ok_resolves s tx.inputs v hvsum
      obtain ⟨old2, hmu, hmrel, hmtr, hmbl⟩ := markInputs_inv s b.height
        ((done ++ [tx]).map Transaction.id) tx.id hsp hnodup
        tx.inputs c2m old (fresh ++ ns) hc2u hrel2 hfresh2 hvalin
      have hcur2 : cur2 = TransactionRepository.markInputs c2m tx.id tx.inputs := by
        injection hsave with _ hb2; exact hb2.symm
      refine ⟨⟨old2, fresh ++ ns, by rw [hcur2]; exact hmu, hmrel, hfresh2⟩, ?_, ?_, ?_⟩
      · rw [hcur2, hmtr, htr2, hc1t, htx]
        simp [List.map_append]
      · intro tx2 htx2 r hr
        rcases List.mem_append.mp htx2 with hd | hs1
        · exact hfreshIds tx2 hd r hr
        · have htx2eq : tx2 = tx := by simpa using hs1
          subst htx2eq
          exact hfreshId r (by rw [htx]; exact List.mem_append_left _ hr)
      · rw [hcur2, hmbl, hbl2, hc1b, hbl]

/-- The saveTransaction loop preserves the apply invariant along the processed
prefix of validated transactions. -/
theorem saveTransactions_inv (s : DBState) (b : Block)
    (hnodup : (s.utxos.map rowKey).Nodup) :
    ∀ (l done : List Transaction) (cur fin : DBState),
    ApplyInv s b done cur →
    (∀ tx ∈ l, BlockchainService.validateTransaction s tx = none) →
    BlockchainService.saveTransactions cur b.id b.height l = (none, fin) →
    ApplyInv s b (done ++ l) fin := by
  intro l
  induction l with
  | nil =>
    intro done cur fin hinv _ hrun
    simp only [BlockchainService.saveTransactions] at hrun
    injection hrun with _ hb
    rw [← hb]
    simpa using hinv
  | cons tx rest ih =>
    intro done cur fin hinv hval hrun
    simp only [BlockchainService.saveTransactions] at hrun
    rcases h1 : TransactionRepository.saveTransaction cur tx b.id b.height with ⟨e1, c1⟩
    rw [h1] at hrun
    cases e1 with
    | some e => simp at hrun
    | none =>
      have hinv2 := saveTransaction_inv s b done tx cur c1 hinv
        (hval tx (List.mem_cons_self _ _)) hnodup h1
      have hres := ih (done ++ [tx]) c1 fin hinv2
        (fun t ht => hval t (List.mem_cons_of_mem _ ht)) hrun
      simpa [List.append_assoc] using hres

/-- A successful processBlock run validated the block and satisfies the apply
invariant for the full transaction list. -/
theorem processBlock_ok_inv (s : DBState) (b : Block) (s2 : DBState)
    (hnodup : (s.utxos.map rowKey).Nodup)
    (hproc : BlockchainService.processBlock s b = (none, s2)) :
    BlockchainService.validateBlock s b = none ∧ ApplyInv s b b.transactions s2 := by
  simp only [BlockchainService.processBlock] at hproc
  rcases hv : BlockchainService.validateBlock s b with _ | e
  · rw [hv] at hproc
    rcases h1 : BlockRepository.saveBlock s b.id b.height with ⟨e1, s1⟩
    rw [h1] at hproc
    cases e1 with
    | some e => simp at hproc
    | none =>
      have hs1 := saveBlock_ok s b.id b.height s1 h1
      have hbase : ApplyInv s b [] s1 := by
        refine ⟨⟨s.utxos, [], by rw [hs1]; simp, ?_, by simp⟩, by rw [hs1]; simp,
          by simp, by rw [hs1]⟩
        exact List.forall₂_same.mpr (fun u _ => Or.inl rfl)
      have hvtxs := (validateBlock_none s b hv).2
      have hres := saveTransactions_inv s b hnodup b.transactions [] s1 s2 hbase
        (validateTxs_none s b.transactions hvtxs) hproc
      exact ⟨rfl, by simpa using hres⟩
  · rw [hv] at hproc; simp at hproc

/-- C4: on a consistent ledger (unique utxo keys, spent iff spentInTx set,
spenders recorded in the transactions table, record heights bounded by the
current height), a successful apply of a block at height h followed by a rollback
to h - 1 restores the utxo table exactly: records spent by the block are unspent
again with spentInTx cleared, records created by the block no longer exist, and
every other record is unchanged. -/
theorem c4_roundtrip (s : DBState) (b : Block) (s2 : DBState)
    (hproc : BlockchainService.processBlock s b = (none, s2))
    (hnodup : (s.utxos.map rowKey).Nodup)
    (hspND : ∀ u ∈ s.utxos, u.spent = false → u.spentInTx = none)
    (hspenders : ∀ u ∈ s.utxos, ∀ t, u.spentInTx = some t → ∃ r ∈ s.transactions, r.id = t)
    (hth : ∀ r ∈ s.transactions, r.blockHeight ≤ BlockRepository.getCurrentHeight s)
    (huh : ∀ u ∈ s.utxos, u.blockHeight ≤ BlockRepository.getCurrentHeight s) :
    (BlockchainService.rollbackToHeight s2 (b.height - 1)).1 = none ∧
    (BlockchainService.rollbackToHeight s2 (b.height - 1)).2.utxos = s.utxos := by
  obtain ⟨hvb, hinv⟩ := processBlock_ok_inv s b s2 hnodup hproc
  obtain ⟨⟨old, fresh, hcur, hrel, hfresh⟩, htx, hfreshIds, hbl⟩ := hinv
  have hheight : b.height = BlockRepository.getCurrentHeight s + 1 :=
    (validateBlock_none s b hvb).1
  have hm : (⟨b.id, b.height⟩ : BlockRow) ∈ s2.blocks := by
    rw [hbl]; exact List.mem_append_right _ (by simp)
  have hcur2 : b.height ≤ BlockRepository.getCurrentHeight s2 :=
    height_le_getCurrentHeight s2 ⟨b.id, b.height⟩ hm
  have hsvc : BlockchainService.rollbackToHeight s2 (b.height - 1) =
      (none, BlockRepository.rollbackToHeight s2 (b.height - 1)) := by
    simp only [BlockchainService.rollbackToHeight]
    rw [if_neg (by omega)]
  rw [hsvc]
  refine ⟨rfl, ?_⟩
  have hrows : s2.transactions.filter (fun t => decide (b.height - 1 < t.blockHeight)) =
      b.transactions.map (fun tx => (⟨tx.id, b.id, b.height⟩ : TxRow)) := by
    rw [htx, List.filter_append]
    have hfo : s.transactions.filter (fun t => decide (b.height - 1 < t.blockHeight)) = [] := by
      refine List.filter_eq_nil_iff.mpr (fun r hr => ?_)
      have := hth r hr
      simp only [decide_eq_true_eq]
      omega
    have hfn : (b.transactions.map (fun tx => (⟨tx.id, b.id, b.height⟩ : TxRow))).filter
        (fun t => decide (b.height - 1 < t.blockHeight)) =
        b.transactions.map (fun tx => (⟨tx.id, b.id, b.height⟩ : TxRow)) := by
      refine List.filter_eq_self.mpr (fun r hr => ?_)
      obtain ⟨tx2, _, rfl⟩ := List.mem_map.mp hr
      simp only [decide_eq_true_eq]
      omega
    rw [hfo, hfn, List.nil_append]
  have hids : (s2.transactions.filter
      (fun t => decide (b.height - 1 < t.blockHeight))).map TxRow.id =
      b.transactions.map Transaction.id := by
    rw [hrows, List.map_map]
    rfl
  simp only [BlockRepository.rollbackToHeight]
  rw [hids, hcur, List.map_append, List.filter_append]
  have hfreshdel : ((fresh.map (fun u =>
      if BlockRepository.spentByRolled (b.transactions.map Transaction.id) u then
        { u with spent := false, spentInTx := none }
      else u)).filter (fun u => decide (u.blockHeight ≤ b.height - 1))) = [] := by
    refine List.filter_eq_nil_iff.mpr (fun v hv => ?_)
    obtain ⟨w, hwm, rfl⟩ := List.mem_map.mp hv
    have hwh : w.blockHeight = b.height := (hfresh w hwm).1
    have hpres := reset_preserves_blockHeight
      (BlockRepository.spentByRolled (b.transactions.map Transaction.id) w) w
    simp only [decide_eq_true_eq]
    rw [hpres, hwh]
    omega
  have hmapold : old.map (fun u =>
      if BlockRepository.spentByRolled (b.transactions.map Transaction.id) u then
        { u with spent := false, spentInTx := none }
      else u) = s.utxos := by
    refine forall₂_map_eq_mem _ hrel ?_
    intro u hu v huv
    rcases huv with hveq | ⟨hus, t, htm, hveq⟩
    all_goals subst v
    · rcases hsp : u.spentInTx with _ | t
      · rw [if_neg]
        simp [BlockRepository.spentByRolled, hsp]
      · obtain ⟨r, hrm, hrid⟩ := hspenders u hu t hsp
        have htnot : t ∉ b.transactions.map Transaction.id := by
          intro hmem
          obtain ⟨tx2, htx2m, htxid⟩ := List.mem_map.mp hmem
          exact hfreshIds tx2 htx2m r hrm (by rw [hrid, htxid])
        rw [if_neg]
        simp [BlockRepository.spentByRolled, hsp, List.contains, List.elem_iff, htnot]
    · rw [if_pos]
      · have hnd := hspND u hu hus
        obtain ⟨a1, a2, a3, a4, a5, a6, a7⟩ := u
        simp only at hus hnd
        simp [hus, hnd]
      · simp [BlockRepository.spentByRolled, List.contains, List.elem_iff, htm]
  have hkeep : s.utxos.filter (fun u => decide (u.blockHeight ≤ b.height - 1)) = s.utxos := by
    refine List.filter_eq_self.mpr (fun u hu => ?_)
    have := huh u hu
    simp only [decide_eq_true_eq]
    omega
  rw [hmapold, hkeep, hfreshdel, List.append_nil]

/-- C4 witness: applying the genesis block on the empty ledger and rolling back to
height 0 restores the empty utxo table. -/
theorem c4_witness :
    (BlockchainService.rollbackToHeight (BlockchainService.processBlock emptyState gblock).2
      (gblock.height - 1)).1 = none ∧
    (BlockchainService.rollbackToHeight (BlockchainService.processBlock emptyState gblock).2
      (gblock.height - 1)).2.utxos = emptyState.utxos :=
  c4_roundtrip emptyState gblock (BlockchainService.processBlock emptyState gblock).2
    rfl (by decide) (by decide) (by decide) (by decide) (by decide)

end Indexer
